import Mathlib

/-!
Verification of the snippet synchronization engine in `src/sync_snippets.py`
(sync between a VS Code snippet store and a Neovim snippet store).

The Python code is shallowly embedded: file contents are `String`s, a
snippet store is an association list from file name to file content, and
the two regular expressions of the source (`^\s+//[\s]+` and
`"scope":\s*"([^"]+)"`) are modeled as executable scanners over `List Char`.
Text decoding (utf-8 with a cp932 fallback) is modeled as already-decoded
strings; the decode fallback affects no property proved here.
-/

namespace SyncSnippets

/-- Whitespace as matched by Python's `\s` on the ASCII range (the snippet
files contain only ASCII whitespace; Python additionally matches some
Unicode whitespace, which never occurs here). -/
def isPySpace (c : Char) : Bool :=
  c = ' ' || c = '\t' || c = '\n' || c = '\r' || c = '\x0b' || c = '\x0c'

/-- Python `str.strip()`: remove leading and trailing whitespace. -/
def pyStrip (s : String) : String :=
  String.mk (((s.data.dropWhile isPySpace).reverse.dropWhile isPySpace).reverse)

/-- Loop of `pySplitComma`. -/
def splitCommaLoop (acc : List Char) : List Char → List String
  | [] => [String.mk acc.reverse]
  | c :: cs =>
    if c = ',' then String.mk acc.reverse :: splitCommaLoop [] cs
    else splitCommaLoop (c :: acc) cs

/-- Python `s.split(",")` (note `"".split(",") == [""]`). -/
def pySplitComma (s : String) : List String :=
  splitCommaLoop [] s.data

/-- Python `",".join(l)`. -/
def pyJoinComma : List String → String
  | [] => ""
  | [s] => s
  | s :: rest => s ++ "," ++ pyJoinComma rest

/-- Python `"".join(l)`. -/
def pyConcat : List String → String
  | [] => ""
  | s :: rest => s ++ pyConcat rest

/-- Python `s.replace(" ", "")`: remove every space character. -/
def removeSpaces (s : String) : String :=
  String.mk (s.data.filter (fun c => !(c = ' ')))

/-- Membership test of a name in a list of names (Python's `in`). -/
def memName (n : String) : List String → Bool
  | [] => false
  | m :: rest => if m = n then true else memName n rest

/-- Loop of `dedupFirst`, carrying the names already seen. -/
def dedupLoop (seen : List String) : List String → List String
  | [] => []
  | n :: rest =>
    if memName n seen then dedupLoop seen rest
    else n :: dedupLoop (n :: seen) rest

/-- Python `set(l)` viewed as a duplicate-free list.  A Python set iterates
in an unspecified order; this model fixes first-occurrence order as the
canonical choice, and no theorem below depends on that choice. -/
def dedupFirst (l : List String) : List String :=
  dedupLoop [] l

/-- A snippet store: the contents of one `snippets` directory, as an
association list from file name to file content. -/
abbrev Store := List (String × String)

/-- File names present in a store (a directory listing). -/
def storeNames (store : Store) : List String :=
  store.map Prod.fst

/-- Read a file from a store; `none` models `FileNotFoundError`. -/
def getFile : Store → String → Option String
  | [], _ => none
  | f :: rest, name => if f.1 = name then some f.2 else getFile rest name

/-- Write a file into a store: `open(path, "w")` truncates an existing
file of that name or creates a new one. -/
def setFile (store : Store) (name content : String) : Store :=
  if store.any (fun f => f.1 = name) then
    store.map (fun f => if f.1 = name then (name, content) else f)
  else
    store ++ [(name, content)]

/-- Source: `SnippetsSync._convert_scope_from_vscode_to_nvim` — the A→B
(VS Code→Neovim) scope table, with identity passthrough. -/
def _convert_scope_from_vscode_to_nvim (scope : String) : String :=
  if scope = "plaintext" then "text"
  else if scope = "bat" then "dosbatch"
  else if scope = "powershell" then "ps1"
  else if scope = "ignore" then "gitignore"
  else if scope = "shellscript" then "sh,zsh"
  else if scope = "pip-requirements" then "requirements"
  else scope

/-- Source: `SnippetsSync._convert_scope_from_nvim_to_vscode` — the B→A
(Neovim→VS Code) scope table, with identity passthrough. -/
def _convert_scope_from_nvim_to_vscode (scope : String) : String :=
  if scope = "text" then "plaintext"
  else if scope = "dosbatch" then "bat"
  else if scope = "ps1" then "powershell"
  else if scope = "gitignore" then "ignore"
  else if scope = "sh" then "shellscript"
  else if scope = "zsh" then "shellscript"
  else if scope = "bash" then "shellscript"
  else if scope = "requirements" then "pip-requirements"
  else scope

/-- Test for `//` followed by at least one whitespace character at the
head of a character list (the part of the comment regex after the leading
whitespace). -/
def checkSlashes (l : List Char) : Bool :=
  match l with
  | c1 :: c2 :: d :: _ => c1 = '/' && c2 = '/' && isPySpace d
  | _ => false

/-- Source line 124: `re.match(r"^\s+//[\s]+", line)`.  The regex prefix-
matches: one or more whitespace characters, the two slashes, then at least
one more whitespace character; anything may follow.  The greedy `\s+`
coincides with the maximal whitespace run because `/` is not whitespace. -/
def isInvalidLine (line : String) : Bool :=
  match line.data with
  | [] => false
  | c :: _ => isPySpace c && checkSlashes (line.data.dropWhile isPySpace)

/-- Strip a literal character sequence from the front of a list. -/
def stripPrefixChars : List Char → List Char → Option (List Char)
  | [], cs => some cs
  | _ :: _, [] => none
  | p :: ps, c :: cs => if c = p then stripPrefixChars ps cs else none

/-- The literal part of the scope regex, `"scope":` as characters. -/
def scopeLit : List Char := ['\"', 's', 'c', 'o', 'p', 'e', '\"', ':']

/-- Match the regex `"scope":\s*"([^"]+)"` at the head of a character
list.  On success, return the captured group (the non-empty run of
non-quote characters) together with the remainder after the whole match.
The regex engine's greedy `\s*` and `[^"]+` coincide with the maximal
`dropWhile`/`takeWhile` runs because neither class can match the character
that must follow it. -/
def matchScopeHead (cs : List Char) : Option (List Char × List Char) :=
  match stripPrefixChars scopeLit cs with
  | none => none
  | some r1 =>
    match r1.dropWhile isPySpace with
    | '\"' :: r3 =>
      match r3.takeWhile (fun c => !(c = '\"')), r3.dropWhile (fun c => !(c = '\"')) with
      | [], _ => none
      | _ :: _, [] => none
      | a :: as, '\"' :: rem => some (a :: as, rem)
      | _ :: _, _ :: _ => none
    | _ => none

/-- Python `re.search` with the scope regex: the captured group of the
leftmost match, if any. -/
def searchScope : List Char → Option (List Char)
  | [] => none
  | c :: rest =>
    match matchScopeHead (c :: rest) with
    | some (val, _) => some val
    | none => searchScope rest

/-- Loop of `scopeSubAll`.  The fuel only bounds the number of scan steps;
it is initialized to the length of the input, which suffices because every
step consumes at least one character. -/
def scopeSubLoop (repl : List Char) : Nat → List Char → List Char
  | _, [] => []
  | 0, cs => cs
  | fuel + 1, c :: rest =>
    match matchScopeHead (c :: rest) with
    | some (_, rem) => repl ++ scopeSubLoop repl fuel rem
    | none => c :: scopeSubLoop repl fuel rest

/-- Python `re.sub` with the scope regex: replace every non-overlapping
leftmost match by `repl`, scanning left to right. -/
def scopeSubAll (repl : List Char) (cs : List Char) : List Char :=
  scopeSubLoop repl cs.length cs

/-- Source lines 128-132: split the captured scope value on commas, strip
each token, translate it A→B, and rejoin with commas. -/
def translateScopeValue (v : String) : String :=
  pyJoinComma ((pySplitComma v).map
    (fun s => _convert_scope_from_vscode_to_nvim (pyStrip s)))

/-- Source lines 126-137: if the line contains a `"scope": "<value>"`
declaration, replace every occurrence of the scope pattern by
`"scope": "<translated first value>"` (the replacement f-string carries
exactly one space after the colon); otherwise return the line unchanged. -/
def rewriteLine (line : String) : String :=
  match searchScope line.data with
  | none => line
  | some val =>
    String.mk (scopeSubAll
      (("\"scope\": \"" ++ translateScopeValue (String.mk val) ++ "\"").data)
      line.data)

/-- Loop of `validLines`: source lines 122-138, accumulating `valid_lines`. -/
def validLinesLoop (acc : List String) : List String → List String
  | [] => acc
  | line :: rest =>
    if isInvalidLine line then validLinesLoop acc rest
    else validLinesLoop (acc ++ [rewriteLine line]) rest

/-- The content filter/rewriter applied when copying A→B: drop the
comment-matching lines, rewrite the scope declaration of the kept lines. -/
def validLines (lines : List String) : List String :=
  validLinesLoop [] lines

/-- Loop of `pyReadlines`. -/
def readlinesLoop (acc : List Char) : List Char → List String
  | [] => if acc = [] then [] else [String.mk acc.reverse]
  | c :: cs =>
    if c = '\n' then String.mk (c :: acc).reverse :: readlinesLoop [] cs
    else readlinesLoop (c :: acc) cs

/-- Python `f.readlines()`: split after every newline, keeping it. -/
def pyReadlines (s : String) : List String :=
  readlinesLoop [] s.data

/-- The A→B content transformation of one whole file: read the lines,
filter and rewrite them, and join the result (`fout.writelines("".join(valid_lines))`). -/
def syncContent (content : String) : String :=
  pyConcat (validLines (pyReadlines content))

/-- Source: dataclass `_SnippetFile` — one record of the inventory. -/
structure _SnippetFile where
  name : String
  exists_in_vscode : Bool
  exists_in_nvim : Bool
deriving DecidableEq, Repr

/-- The two snippet directories the engine reads and writes:
`<vscode_dirpath>/snippets` and `<nvim_dirpath>/snippets`. -/
structure SyncState where
  vscode : Store
  nvim : Store
deriving DecidableEq, Repr

/-- Source: `SnippetsSync.list_snippets_files` — glob both snippets
directories, take the set union of the file names and record for each name
in which store it was observed. -/
def list_snippets_files (st : SyncState) : List _SnippetFile :=
  (dedupFirst (storeNames st.nvim ++ storeNames st.vscode)).map
    (fun filename =>
      { name := filename
        exists_in_vscode := memName filename (storeNames st.vscode)
        exists_in_nvim := memName filename (storeNames st.nvim) })

/-- Source: `SnippetsSync.nvim_to_vscode` — for every record that exists
in nvim and not in vscode, copy the file byte-for-byte into the vscode
snippets directory.  `none` models an uncaught `FileNotFoundError` from
`shutil.copy2`. -/
def nvim_to_vscode (records : List _SnippetFile) (st : SyncState) : Option SyncState :=
  match records with
  | [] => some st
  | r :: rest =>
    if r.exists_in_nvim && !r.exists_in_vscode then
      match getFile st.nvim r.name with
      | some content =>
        nvim_to_vscode rest { st with vscode := setFile st.vscode r.name content }
      | none => none
    else nvim_to_vscode rest st

/-- Source: `SnippetsSync.vscode_to_nvim` — for every record selected by
`force_copy or (exists_in_vscode and not exists_in_nvim)`, read the vscode
file, filter and rewrite its lines, and write the result into the nvim
snippets directory.  `none` models an uncaught `FileNotFoundError` from
`open` on a missing vscode-side file. -/
def vscode_to_nvim (force_copy : Bool) (records : List _SnippetFile) (st : SyncState) :
    Option SyncState :=
  match records with
  | [] => some st
  | r :: rest =>
    if force_copy || (r.exists_in_vscode && !r.exists_in_nvim) then
      match getFile st.vscode r.name with
      | some content =>
        vscode_to_nvim force_copy rest
          { st with nvim := setFile st.nvim r.name (syncContent content) }
      | none => none
    else vscode_to_nvim force_copy rest st

/-- Source `__main__` lines 242-244: build the inventory once, run the
B→A pass, then the A→B pass with the given force flag.  The manifest is
generated afterwards from the resulting nvim store (modeled separately by
`create_package_json`; its output file `package.json` does not match the
`*.code-snippets` glob and is therefore not part of either store). -/
def runMain (force : Bool) (st : SyncState) : Option SyncState :=
  match nvim_to_vscode (list_snippets_files st) st with
  | none => none
  | some st1 => vscode_to_nvim force (list_snippets_files st) st1

/-- Source: `SnippetDict` — only the `scope` value is ever read by the
engine (`snippet.get("scope", "")`); `none` models an absent key.  The
other keys (prefix, description, body) are never consulted. -/
structure SnippetEntry where
  scope : Option String
deriving DecidableEq, Repr

/-- Source: `NvimSnippet` — one manifest entry. -/
structure NvimSnippet where
  language : String
  path : String
deriving DecidableEq, Repr

/-- Source lines 174-180: accumulate, over all entries of one parsed
snippet file, the comma-split, stripped, A→B-translated scope tokens. -/
def collectScopes : List SnippetEntry → List String
  | [] => []
  | e :: rest =>
    ((pySplitComma (e.scope.getD "")).map
      (fun s => _convert_scope_from_vscode_to_nvim (pyStrip s))) ++ collectScopes rest

/-- Source lines 181-183: `language = ",".join(set(scopes)).replace(" ", "")`,
with the sentinel `"all"` substituted when the result is empty. -/
def fileLanguage (entries : List SnippetEntry) : String :=
  let language := removeSpaces (pyJoinComma (dedupFirst (collectScopes entries)))
  if language = "" then "all" else language

/-- Source: `SnippetsSync.create_package_json` restricted to the snippet
list it builds: one manifest entry per nvim snippet file, with the
aggregated language expression and the relative path `./<filename>`.
The store is given already parsed (JSON parsing is the standard library's
`json.load`; a parse failure is re-raised and no manifest is written, a
case no claim below exercises). -/
def create_package_json (store : List (String × List SnippetEntry)) : List NvimSnippet :=
  store.map (fun f => { language := fileLanguage f.2, path := "./" ++ f.1 })

/-- Parse every file of a store with a given parser, as `create_package_json`
does with `json.load` before aggregating scopes. -/
def parsedStore (parse : String → List SnippetEntry) (store : Store) :
    List (String × List SnippetEntry) :=
  store.map (fun f => (f.1, parse f.2))

/-- Spec taxonomy name for the fatal error raised when the store roots
cannot be resolved (the source raises `RuntimeError(f"Unsupported platform: {system}")`). -/
inductive ConfigurationError where
  | unsupportedPlatform : String → ConfigurationError
deriving DecidableEq, Repr

/-- Source: `SnippetsSync._detect_config_dirpathes` — resolve the two
store roots from the host platform name; any platform other than Windows,
Darwin or Linux raises.  Paths are modeled as component lists. -/
def _detect_config_dirpathes (home : List String) (system : String) :
    Except ConfigurationError (List String × List String) :=
  if system = "Windows" then
    Except.ok (home ++ ["AppData", "Roaming", "Code", "User"],
               home ++ ["AppData", "Local", "nvim"])
  else if system = "Darwin" then
    Except.ok (home ++ ["Library", "Application Support", "Code", "User"],
               home ++ [".config", "nvim"])
  else if system = "Linux" then
    Except.ok (home ++ [".config", "Code", "User"],
               home ++ [".config", "nvim"])
  else
    Except.error (ConfigurationError.unsupportedPlatform system)

/-- Source `__main__` together with `SnippetsSync.__init__`: resolve the
store roots first (`SnippetsSync()` calls `_detect_config_dirpathes`
before any directory listing), then read the two snippets directories
from the filesystem and run both passes.  `fs` maps a directory path to
its contents; when root detection fails, the run aborts before `fs` is
consulted. -/
def snippetsSyncMain (system : String) (home : List String) (force : Bool)
    (fs : List String → Store) : Except ConfigurationError (Option SyncState) :=
  match _detect_config_dirpathes home system with
  | Except.error e => Except.error e
  | Except.ok (vscode_dirpath, nvim_dirpath) =>
    Except.ok (runMain force
      { vscode := fs (vscode_dirpath ++ ["snippets"])
        nvim := fs (nvim_dirpath ++ ["snippets"]) })

/-- Follows the wording of claim C1 for the dropped lines: a line
consisting solely of leading whitespace, the `//` marker, and more
whitespace (at least one character of each whitespace run, nothing after). -/
def claimSolelyCommentLine (line : String) : Bool :=
  match line.data with
  | [] => false
  | c :: _ =>
    isPySpace c &&
    (match line.data.dropWhile isPySpace with
     | c1 :: c2 :: rest =>
       c1 = '/' && c2 = '/' && !rest.isEmpty && rest.all isPySpace
     | _ => false)

/-- Follows the wording of claim C2 for the language expression: the
comma-joined, de-duplicated, A→B-translated set of all scope tokens
declared across the file's entries (an entry without a scope declares no
token), with `"all"` substituted when that set is empty. -/
def claimFileLanguage (entries : List SnippetEntry) : String :=
  let tokens := dedupFirst (entries.foldl
    (fun acc e =>
      match e.scope with
      | none => acc
      | some s => acc ++ (pySplitComma s).map
          (fun t => _convert_scope_from_vscode_to_nvim (pyStrip t)))
    [])
  if tokens = [] then "all" else pyJoinComma tokens

/-! Basic lemmas about the string and store primitives. -/

lemma memName_eq_true_iff (n : String) (l : List String) :
    memName n l = true ↔ n ∈ l := by
  induction l with
  | nil => simp [memName]
  | cons m rest ih =>
    by_cases h : m = n
    · subst h; simp [memName]
    · have h' : ¬ n = m := fun hh => h hh.symm
      simp [memName, h, ih, List.mem_cons, h']

lemma mem_dedupLoop (n : String) (l : List String) : ∀ seen : List String,
    n ∈ dedupLoop seen l ↔ n ∈ l ∧ n ∉ seen := by
  induction l with
  | nil => intro seen; simp [dedupLoop]
  | cons m rest ih =>
    intro seen
    by_cases h : memName m seen = true
    · have hm : m ∈ seen := (memName_eq_true_iff m seen).mp h
      rw [show dedupLoop seen (m :: rest) = dedupLoop seen rest by simp [dedupLoop, h]]
      rw [ih seen]
      constructor
      · rintro ⟨hn, hs⟩; exact ⟨List.mem_cons_of_mem m hn, hs⟩
      · rintro ⟨hn, hs⟩
        rcases List.mem_cons.mp hn with rfl | hn'
        · exact absurd hm hs
        · exact ⟨hn', hs⟩
    · have hm : m ∉ seen := fun hs => h ((memName_eq_true_iff m seen).mpr hs)
      rw [show dedupLoop seen (m :: rest) = m :: dedupLoop (m :: seen) rest by
        simp [dedupLoop, h]]
      constructor
      · intro hn
        rcases List.mem_cons.mp hn with rfl | hn'
        · exact ⟨List.mem_cons_self _ _, hm⟩
        · obtain ⟨h1, h2⟩ := (ih (m :: seen)).mp hn'
          exact ⟨List.mem_cons_of_mem m h1,
            fun hseen => h2 (List.mem_cons_of_mem m hseen)⟩
      · rintro ⟨hn, hs⟩
        rcases List.mem_cons.mp hn with rfl | hn'
        · exact List.mem_cons_self _ _
        · by_cases hnm : n = m
          · exact hnm ▸ List.mem_cons_self _ _
          · refine List.mem_cons_of_mem m ((ih (m :: seen)).mpr ⟨hn', ?_⟩)
            intro hseen
            rcases List.mem_cons.mp hseen with h1 | h1
            · exact hnm h1
            · exact hs h1

lemma mem_dedupFirst (n : String) (l : List String) :
    n ∈ dedupFirst l ↔ n ∈ l := by
  simp [dedupFirst, mem_dedupLoop]

lemma getFile_eq_none_iff (store : Store) (n : String) :
    getFile store n = none ↔ memName n (storeNames store) = false := by
  induction store with
  | nil => simp [getFile, storeNames, memName]
  | cons f rest ih =>
    by_cases h : f.1 = n
    · simp [getFile, h, storeNames, memName]
    · simpa [getFile, h, storeNames, memName] using ih

lemma getFile_ne_none_iff (store : Store) (n : String) :
    getFile store n ≠ none ↔ memName n (storeNames store) = true := by
  rw [Ne, getFile_eq_none_iff]
  cases h : memName n (storeNames store) <;> simp [h]

lemma getFile_replaceAll (store : Store) (n c : String)
    (h : store.any (fun f => f.1 = n) = true) :
    getFile (store.map (fun f => if f.1 = n then (n, c) else f)) n = some c := by
  induction store with
  | nil => simp at h
  | cons f rest ih =>
    by_cases hf : f.1 = n
    · simp [getFile, hf]
    · simp only [List.any_cons, Bool.or_eq_true, decide_eq_true_eq] at h
      rcases h with h | h
      · exact absurd h hf
      · simpa [getFile, hf] using ih h

lemma getFile_append_any_false (store : Store) (n c : String)
    (h : store.any (fun f => f.1 = n) = false) :
    getFile (store ++ [(n, c)]) n = some c := by
  induction store with
  | nil => simp [getFile]
  | cons f rest ih =>
    simp only [List.any_cons, Bool.or_eq_false_iff, decide_eq_false_iff_not] at h
    have hrest : rest.any (fun f => f.1 = n) = false := h.2
    simpa [getFile, h.1] using ih hrest

lemma getFile_setFile_self (store : Store) (n c : String) :
    getFile (setFile store n c) n = some c := by
  unfold setFile
  cases h : store.any (fun f => f.1 = n) with
  | true => simpa using getFile_replaceAll store n c h
  | false => simpa using getFile_append_any_false store n c h

lemma getFile_map_replace_ne (store : Store) (n c m : String) (h : m ≠ n) :
    getFile (store.map (fun f => if f.1 = n then (n, c) else f)) m = getFile store m := by
  induction store with
  | nil => rfl
  | cons f rest ih =>
    by_cases hf : f.1 = n
    · have h1 : ¬ n = m := fun hh => h hh.symm
      have h2 : ¬ f.1 = m := by rw [hf]; exact h1
      simp [getFile, hf, h1, h2, ih]
    · by_cases hm : f.1 = m
      · simp [getFile, hf, hm, h]
      · simp [getFile, hf, hm, ih]

lemma getFile_append_single_ne (store : Store) (n c m : String) (h : m ≠ n) :
    getFile (store ++ [(n, c)]) m = getFile store m := by
  induction store with
  | nil =>
    have h1 : ¬ n = m := fun hh => h hh.symm
    simp [getFile, h1]
  | cons f rest ih =>
    by_cases hm : f.1 = m
    · simp [getFile, hm]
    · simp [getFile, hm, ih]

lemma getFile_setFile_ne (store : Store) (n c m : String) (h : m ≠ n) :
    getFile (setFile store n c) m = getFile store m := by
  unfold setFile
  cases hany : store.any (fun f => f.1 = n) with
  | true => simpa using getFile_map_replace_ne store n c m h
  | false => simpa using getFile_append_single_ne store n c m h

/-! Lemmas about the inventory `list_snippets_files`. -/

lemma list_snippets_files_flags (st : SyncState) (r : _SnippetFile)
    (h : r ∈ list_snippets_files st) :
    r.exists_in_vscode = memName r.name (storeNames st.vscode) ∧
    r.exists_in_nvim = memName r.name (storeNames st.nvim) := by
  unfold list_snippets_files at h
  rcases List.mem_map.mp h with ⟨n, _, rfl⟩
  exact ⟨rfl, rfl⟩

lemma list_snippets_files_name_mem (st : SyncState) (r : _SnippetFile)
    (h : r ∈ list_snippets_files st) :
    r.name ∈ storeNames st.nvim ∨ r.name ∈ storeNames st.vscode := by
  unfold list_snippets_files at h
  rcases List.mem_map.mp h with ⟨n, hn, rfl⟩
  exact List.mem_append.mp ((mem_dedupFirst n _).mp hn)

lemma list_snippets_files_complete (st : SyncState) (n : String)
    (h : n ∈ storeNames st.nvim ∨ n ∈ storeNames st.vscode) :
    ({ name := n
       exists_in_vscode := memName n (storeNames st.vscode)
       exists_in_nvim := memName n (storeNames st.nvim) } : _SnippetFile)
      ∈ list_snippets_files st := by
  unfold list_snippets_files
  exact List.mem_map.mpr
    ⟨n, (mem_dedupFirst n _).mpr (List.mem_append.mpr h), rfl⟩

lemma list_snippets_files_flag_or (st : SyncState) (r : _SnippetFile)
    (h : r ∈ list_snippets_files st) :
    r.exists_in_vscode = true ∨ r.exists_in_nvim = true := by
  obtain ⟨hv, hn⟩ := list_snippets_files_flags st r h
  rcases list_snippets_files_name_mem st r h with hm | hm
  · exact Or.inr (by rw [hn]; exact (memName_eq_true_iff _ _).mpr hm)
  · exact Or.inl (by rw [hv]; exact (memName_eq_true_iff _ _).mpr hm)

/-! Lemmas about the two sync passes. -/

lemma nvim_to_vscode_noop (records : List _SnippetFile) (st : SyncState)
    (h : ∀ r ∈ records, (r.exists_in_nvim && !r.exists_in_vscode) = false) :
    nvim_to_vscode records st = some st := by
  induction records with
  | nil => rfl
  | cons r rest ih =>
    have hr := h r (List.mem_cons_self r rest)
    simp only [nvim_to_vscode, hr, Bool.false_eq_true, if_false]
    exact ih (fun r' h' => h r' (List.mem_cons_of_mem r h'))

lemma vscode_to_nvim_noop (force : Bool) (records : List _SnippetFile) (st : SyncState)
    (h : ∀ r ∈ records, (force || (r.exists_in_vscode && !r.exists_in_nvim)) = false) :
    vscode_to_nvim force records st = some st := by
  induction records with
  | nil => rfl
  | cons r rest ih =>
    have hr := h r (List.mem_cons_self r rest)
    simp only [vscode_to_nvim, hr, Bool.false_eq_true, if_false]
    exact ih (fun r' h' => h r' (List.mem_cons_of_mem r h'))

lemma nvim_to_vscode_go (records : List _SnippetFile) :
    ∀ st : SyncState,
    (∀ r ∈ records, r.exists_in_nvim = true → r.exists_in_vscode = false →
      getFile st.nvim r.name ≠ none) →
    ∃ st', nvim_to_vscode records st = some st' ∧
      st'.nvim = st.nvim ∧
      (∀ name, getFile st'.vscode name = getFile st.vscode name ∨
        (getFile st'.vscode name = getFile st.nvim name ∧
         ∃ r ∈ records, r.name = name ∧ r.exists_in_nvim = true ∧
           r.exists_in_vscode = false)) ∧
      (∀ r ∈ records, r.exists_in_nvim = true → r.exists_in_vscode = false →
        getFile st'.vscode r.name = getFile st.nvim r.name) := by
  induction records with
  | nil =>
    intro st _
    exact ⟨st, rfl, rfl, fun name => Or.inl rfl, by simp⟩
  | cons r rest ih =>
    intro st hread
    by_cases hc : (r.exists_in_nvim && !r.exists_in_vscode) = true
    · obtain ⟨h1, h2⟩ : r.exists_in_nvim = true ∧ r.exists_in_vscode = false := by
        simpa using hc
      obtain ⟨c, hc2⟩ : ∃ c, getFile st.nvim r.name = some c := by
        rcases hget : getFile st.nvim r.name with _ | c
        · exact absurd hget (hread r (List.mem_cons_self r rest) h1 h2)
        · exact ⟨c, rfl⟩
      obtain ⟨st', hrun, hnv, hdisj, hcopy⟩ :=
        ih { st with vscode := setFile st.vscode r.name c }
          (fun r' h' ha hb => hread r' (List.mem_cons_of_mem r h') ha hb)
      refine ⟨st', ?_, hnv, ?_, ?_⟩
      · simp only [nvim_to_vscode, hc, if_true, hc2]
        exact hrun
      · intro name
        rcases hdisj name with hA | ⟨hB, r', hr', hrn, hren, hrev⟩
        · by_cases hname : name = r.name
          · subst hname
            refine Or.inr ⟨?_, r, List.mem_cons_self r rest, rfl, h1, h2⟩
            rw [hA, getFile_setFile_self, hc2]
          · exact Or.inl (by rw [hA, getFile_setFile_ne _ _ _ _ hname])
        · exact Or.inr ⟨hB, r', List.mem_cons_of_mem r hr', hrn, hren, hrev⟩
      · intro r' hr' ha hb
        rcases List.mem_cons.mp hr' with rfl | hr''
        · rcases hdisj r'.name with hA | ⟨hB, _⟩
          · rw [hA, getFile_setFile_self, hc2]
          · exact hB
        · exact hcopy r' hr'' ha hb
    · have hceq : (r.exists_in_nvim && !r.exists_in_vscode) = false := by
        cases hcc : (r.exists_in_nvim && !r.exists_in_vscode) with
        | true => exact absurd hcc hc
        | false => rfl
      obtain ⟨st', hrun, hnv, hdisj, hcopy⟩ :=
        ih st (fun r' h' ha hb => hread r' (List.mem_cons_of_mem r h') ha hb)
      refine ⟨st', ?_, hnv, ?_, ?_⟩
      · simp only [nvim_to_vscode, hceq, Bool.false_eq_true, if_false]
        exact hrun
      · intro name
        rcases hdisj name with hA | ⟨hB, r', hr', rest'⟩
        · exact Or.inl hA
        · exact Or.inr ⟨hB, r', List.mem_cons_of_mem r hr', rest'⟩
      · intro r' hr' ha hb
        rcases List.mem_cons.mp hr' with rfl | hr''
        · exact absurd (by rw [ha, hb]; rfl) hc
        · exact hcopy r' hr'' ha hb

lemma vscode_to_nvim_go (force : Bool) (records : List _SnippetFile) :
    ∀ st : SyncState,
    (∀ r ∈ records, (force || (r.exists_in_vscode && !r.exists_in_nvim)) = true →
      getFile st.vscode r.name ≠ none) →
    ∃ st', vscode_to_nvim force records st = some st' ∧
      st'.vscode = st.vscode ∧
      (∀ name, getFile st'.nvim name = getFile st.nvim name ∨
        (∃ r ∈ records, r.name = name ∧
          ∃ c, getFile st.vscode r.name = some c ∧
            getFile st'.nvim name = some (syncContent c))) ∧
      (∀ r ∈ records, (force || (r.exists_in_vscode && !r.exists_in_nvim)) = true →
        ∃ c, getFile st.vscode r.name = some c ∧
          getFile st'.nvim r.name = some (syncContent c)) := by
  induction records with
  | nil =>
    intro st _
    exact ⟨st, rfl, rfl, fun name => Or.inl rfl, by simp⟩
  | cons r rest ih =>
    intro st hread
    by_cases hc : (force || (r.exists_in_vscode && !r.exists_in_nvim)) = true
    · obtain ⟨c, hc2⟩ : ∃ c, getFile st.vscode r.name = some c := by
        rcases hget : getFile st.vscode r.name with _ | c
        · exact absurd hget (hread r (List.mem_cons_self r rest) hc)
        · exact ⟨c, rfl⟩
      obtain ⟨st', hrun, hvs, hdisj, hcopy⟩ :=
        ih { st with nvim := setFile st.nvim r.name (syncContent c) }
          (fun r' h' ha => hread r' (List.mem_cons_of_mem r h') ha)
      refine ⟨st', ?_, hvs, ?_, ?_⟩
      · simp only [vscode_to_nvim, hc, if_true, hc2]
        exact hrun
      · intro name
        rcases hdisj name with hA | ⟨r', hr', hrn, c', hcr', hval⟩
        · by_cases hname : name = r.name
          · subst hname
            exact Or.inr ⟨r, List.mem_cons_self r rest, rfl, c, hc2,
              by rw [hA, getFile_setFile_self]⟩
          · exact Or.inl (by rw [hA, getFile_setFile_ne _ _ _ _ hname])
        · exact Or.inr ⟨r', List.mem_cons_of_mem r hr', hrn, c', hcr', hval⟩
      · intro r' hr' ha
        rcases List.mem_cons.mp hr' with rfl | hr''
        · refine ⟨c, hc2, ?_⟩
          rcases hdisj r'.name with hA | ⟨r'', hr'', hrn, c', hcr', hval⟩
          · rw [hA, getFile_setFile_self]
          · rw [hval]
            have : getFile st.vscode r''.name = some c := by rw [hrn, hc2]
            rw [this] at hcr'
            rw [(Option.some.injEq _ _).mp hcr']
        · obtain ⟨c', hcr', hval⟩ := hcopy r' hr'' ha
          exact ⟨c', hcr', hval⟩
    · have hceq : (force || (r.exists_in_vscode && !r.exists_in_nvim)) = false := by
        cases hcc : (force || (r.exists_in_vscode && !r.exists_in_nvim)) with
        | true => exact absurd hcc hc
        | false => rfl
      obtain ⟨st', hrun, hvs, hdisj, hcopy⟩ :=
        ih st (fun r' h' ha => hread r' (List.mem_cons_of_mem r h') ha)
      refine ⟨st', ?_, hvs, ?_, ?_⟩
      · simp only [vscode_to_nvim, hceq, Bool.false_eq_true, if_false]
        exact hrun
      · intro name
        rcases hdisj name with hA | ⟨r', hr', rest'⟩
        · exact Or.inl hA
        · exact Or.inr ⟨r', List.mem_cons_of_mem r hr', rest'⟩
      · intro r' hr' ha
        rcases List.mem_cons.mp hr' with rfl | hr''
        · exact absurd ha hc
        · exact hcopy r' hr'' ha

lemma pass1_read_ok (st : SyncState) :
    ∀ r ∈ list_snippets_files st, r.exists_in_nvim = true → r.exists_in_vscode = false →
      getFile st.nvim r.name ≠ none := by
  intro r hr ha _
  obtain ⟨_, hn⟩ := list_snippets_files_flags st r hr
  rw [getFile_ne_none_iff, ← hn]
  exact ha

lemma pass1_total (st : SyncState) :
    ∃ st1, nvim_to_vscode (list_snippets_files st) st = some st1 := by
  obtain ⟨st1, hrun, _⟩ := nvim_to_vscode_go (list_snippets_files st) st (pass1_read_ok st)
  exact ⟨st1, hrun⟩

lemma pass1_spec (st st1 : SyncState)
    (hrun : nvim_to_vscode (list_snippets_files st) st = some st1) :
    st1.nvim = st.nvim ∧
    (∀ name c, getFile st.vscode name = some c → getFile st1.vscode name = some c) ∧
    (∀ name, getFile st.nvim name ≠ none → getFile st1.vscode name ≠ none) ∧
    (∀ name, getFile st1.vscode name ≠ none →
      getFile st.vscode name ≠ none ∨ getFile st.nvim name ≠ none) ∧
    (∀ r ∈ list_snippets_files st, r.exists_in_nvim = true → r.exists_in_vscode = false →
      getFile st1.vscode r.name = getFile st.nvim r.name) := by
  obtain ⟨st', hrun', hnv, hdisj, hcopy⟩ :=
    nvim_to_vscode_go (list_snippets_files st) st (pass1_read_ok st)
  rw [hrun] at hrun'
  injection hrun' with hst
  subst hst
  refine ⟨hnv, ?_, ?_, ?_, hcopy⟩
  · intro name c hsome
    rcases hdisj name with hA | ⟨hB, r, hr, hrn, hren, hrev⟩
    · rw [hA, hsome]
    · obtain ⟨hv, _⟩ := list_snippets_files_flags st r hr
      rw [hrn] at hv
      have : getFile st.vscode name = none := by
        rw [getFile_eq_none_iff, ← hv, hrev]
      rw [this] at hsome
      cases hsome
  · intro name hne
    by_cases hv : memName name (storeNames st.vscode) = true
    · obtain ⟨c, hc⟩ : ∃ c, getFile st.vscode name = some c := by
        rcases hg : getFile st.vscode name with _ | c
        · exact absurd ((getFile_eq_none_iff _ _).mp hg) (by simp [hv])
        · exact ⟨c, rfl⟩
      rcases hdisj name with hA | ⟨hB, _⟩
      · rw [hA, hc]; exact Option.some_ne_none c
      · rw [hB]; exact hne
    · have hvf : memName name (storeNames st.vscode) = false := by
        cases hg : memName name (storeNames st.vscode) with
        | true => exact absurd hg hv
        | false => rfl
      have hnm : memName name (storeNames st.nvim) = true :=
        (getFile_ne_none_iff _ _).mp hne
      have hmem := list_snippets_files_complete st name
        (Or.inl ((memName_eq_true_iff _ _).mp hnm))
      have := hcopy _ hmem (by simpa using hnm) (by simpa using hvf)
      simp only at this
      rw [this]
      exact hne
  · intro name hne
    rcases hdisj name with hA | ⟨hB, _⟩
    · rw [hA] at hne; exact Or.inl hne
    · rw [hB] at hne; exact Or.inr hne

lemma pass2_read_ok (st st1 : SyncState)
    (hrun : nvim_to_vscode (list_snippets_files st) st = some st1) :
    ∀ r ∈ list_snippets_files st, getFile st1.vscode r.name ≠ none := by
  obtain ⟨_, hpres, htrans, _, _⟩ := pass1_spec st st1 hrun
  intro r hr
  obtain ⟨hv, hn⟩ := list_snippets_files_flags st r hr
  rcases list_snippets_files_flag_or st r hr with hvt | hnt
  · have : getFile st.vscode r.name ≠ none := by
      rw [getFile_ne_none_iff, ← hv]; exact hvt
    obtain ⟨c, hc⟩ : ∃ c, getFile st.vscode r.name = some c := by
      rcases hg : getFile st.vscode r.name with _ | c
      · exact absurd hg this
      · exact ⟨c, rfl⟩
    rw [hpres r.name c hc]
    exact Option.some_ne_none c
  · exact htrans r.name (by rw [getFile_ne_none_iff, ← hn]; exact hnt)

lemma vscode_to_nvim_spec (force : Bool) (records : List _SnippetFile)
    (st1 st2 : SyncState)
    (hread : ∀ r ∈ records, (force || (r.exists_in_vscode && !r.exists_in_nvim)) = true →
      getFile st1.vscode r.name ≠ none)
    (hrun : vscode_to_nvim force records st1 = some st2) :
    st2.vscode = st1.vscode ∧
    (∀ name, getFile st2.nvim name = getFile st1.nvim name ∨
      (∃ r ∈ records, r.name = name ∧
        ∃ c, getFile st1.vscode r.name = some c ∧
          getFile st2.nvim name = some (syncContent c))) ∧
    (∀ r ∈ records, (force || (r.exists_in_vscode && !r.exists_in_nvim)) = true →
      ∃ c, getFile st1.vscode r.name = some c ∧
        getFile st2.nvim r.name = some (syncContent c)) := by
  obtain ⟨st', hrun', h1, h2, h3⟩ := vscode_to_nvim_go force records st1 hread
  rw [hrun] at hrun'
  injection hrun' with hst
  subst hst
  exact ⟨h1, h2, h3⟩

lemma vscode_to_nvim_force_fail (records : List _SnippetFile) :
    ∀ st : SyncState, ∀ r ∈ records, getFile st.vscode r.name = none →
    vscode_to_nvim true records st = none := by
  induction records with
  | nil =>
    intro st r hr _
    exact absurd hr (List.not_mem_nil r)
  | cons r0 rest ih =>
    intro st r hr habs
    rcases hget : getFile st.vscode r0.name with _ | c
    · simp [vscode_to_nvim, hget]
    · have hmem : r ∈ rest := by
        rcases List.mem_cons.mp hr with rfl | h'
        · rw [habs] at hget; cases hget
        · exact h'
      simp only [vscode_to_nvim, Bool.true_or, if_true, hget]
      exact ih _ r hmem habs

/-- Claim C4: for every snippet file recorded as present in store B (nvim)
and absent from store A (vscode), a default-mode run copies the file
byte-for-byte into store A (the copied content equals the nvim content,
with no rewriting), and the B→A pass acts only on names absent from A:
any name already present in store A keeps its content. -/
theorem C4_nvim_to_vscode_copy (st : SyncState) :
    ∃ st', runMain false st = some st' ∧
      (∀ r ∈ list_snippets_files st, r.exists_in_nvim = true →
        r.exists_in_vscode = false →
        getFile st'.vscode r.name = getFile st.nvim r.name) ∧
      (∀ name, memName name (storeNames st.vscode) = true →
        getFile st'.vscode name = getFile st.vscode name) := by
  obtain ⟨st1, hrun1⟩ := pass1_total st
  obtain ⟨hnv, hpres, htrans, hback, hcopy1⟩ := pass1_spec st st1 hrun1
  have hread2 : ∀ r ∈ list_snippets_files st,
      (false || (r.exists_in_vscode && !r.exists_in_nvim)) = true →
      getFile st1.vscode r.name ≠ none :=
    fun r hr _ => pass2_read_ok st st1 hrun1 r hr
  obtain ⟨st2, hrun2, _⟩ := vscode_to_nvim_go false (list_snippets_files st) st1 hread2
  obtain ⟨hvs2, _, _⟩ := vscode_to_nvim_spec false _ st1 st2 hread2 hrun2
  refine ⟨st2, ?_, ?_, ?_⟩
  · simp only [runMain, hrun1]
    exact hrun2
  · intro r hr ha hb
    rw [hvs2]
    exact hcopy1 r hr ha hb
  · intro name hmem
    obtain ⟨c, hc⟩ : ∃ c, getFile st.vscode name = some c := by
      rcases hg : getFile st.vscode name with _ | c
      · exact absurd ((getFile_eq_none_iff _ _).mp hg) (by simp [hmem])
      · exact ⟨c, rfl⟩
    rw [hvs2, hpres name c hc, hc]

/-- Claim C5: in force mode the orchestrated run (B→A pass first, then the
A→B pass with `force_copy=True`) reads, filters and rewrites every
store-A snippet file and writes it into store B, overwriting any prior
B-side content of that name. -/
theorem C5_force_overwrite (st : SyncState) :
    ∃ st', runMain true st = some st' ∧
      ∀ name c, getFile st.vscode name = some c →
        getFile st'.nvim name = some (syncContent c) := by
  obtain ⟨st1, hrun1⟩ := pass1_total st
  obtain ⟨hnv, hpres, htrans, hback, hcopy1⟩ := pass1_spec st st1 hrun1
  have hread2 : ∀ r ∈ list_snippets_files st,
      (true || (r.exists_in_vscode && !r.exists_in_nvim)) = true →
      getFile st1.vscode r.name ≠ none :=
    fun r hr _ => pass2_read_ok st st1 hrun1 r hr
  obtain ⟨st2, hrun2, _⟩ := vscode_to_nvim_go true (list_snippets_files st) st1 hread2
  obtain ⟨hvs2, hdisj2, hcopy2⟩ := vscode_to_nvim_spec true _ st1 st2 hread2 hrun2
  refine ⟨st2, ?_, ?_⟩
  · simp only [runMain, hrun1]
    exact hrun2
  · intro name c hc
    have hmem : memName name (storeNames st.vscode) = true := by
      rw [← getFile_ne_none_iff, hc]
      exact Option.some_ne_none c
    have hrec := list_snippets_files_complete st name
      (Or.inr ((memName_eq_true_iff _ _).mp hmem))
    obtain ⟨c', hc', hval⟩ := hcopy2 _ hrec rfl
    have hc'' : getFile st1.vscode name = some c' := hc'
    have hval' : getFile st2.nvim name = some (syncContent c') := hval
    have hcc : getFile st1.vscode name = some c := hpres name c hc
    rw [hcc] at hc''
    injection hc'' with he
    rw [he]
    exact hval'

/-- Claim C6: running the full default-mode sync a second time, with no
external changes in between, produces no further snippet-file changes: the
second run returns the first run's state unchanged, and the manifest,
regenerated from the same nvim store, has identical content. -/
theorem C6_idempotent (st st1 : SyncState) (hrun : runMain false st = some st1) :
    ∃ st2, runMain false st1 = some st2 ∧ st2 = st1 ∧
      ∀ parse : String → List SnippetEntry,
        create_package_json (parsedStore parse st2.nvim) =
          create_package_json (parsedStore parse st1.nvim) := by
  obtain ⟨stA, h1⟩ := pass1_total st
  have hrm : vscode_to_nvim false (list_snippets_files st) stA = some st1 := by
    have h := hrun
    simp only [runMain, h1] at h
    exact h
  obtain ⟨hnvA, hpres, htrans, hback, hcopy1⟩ := pass1_spec st stA h1
  have hread2 : ∀ r ∈ list_snippets_files st,
      (false || (r.exists_in_vscode && !r.exists_in_nvim)) = true →
      getFile stA.vscode r.name ≠ none :=
    fun r hr _ => pass2_read_ok st stA h1 r hr
  obtain ⟨hvs1, hdisj2, hcopy2⟩ := vscode_to_nvim_spec false _ stA st1 hread2 hrm
  have hA1 : ∀ n, getFile st1.vscode n ≠ none → getFile st1.nvim n ≠ none := by
    intro n hne
    rw [hvs1] at hne
    rcases hback n hne with hv | hn
    · by_cases hnv : memName n (storeNames st.nvim) = true
      · have hpn : getFile st.nvim n ≠ none := (getFile_ne_none_iff _ _).mpr hnv
        rcases hdisj2 n with hA | ⟨r'', hr'', hrn, c, hc, hval⟩
        · rw [hA, hnvA]
          exact hpn
        · rw [hval]
          exact Option.some_ne_none _
      · have hnvf : memName n (storeNames st.nvim) = false := by
          cases hg : memName n (storeNames st.nvim) with
          | true => exact absurd hg hnv
          | false => rfl
        have hmv : memName n (storeNames st.vscode) = true :=
          (getFile_ne_none_iff _ _).mp hv
        have hrec := list_snippets_files_complete st n
          (Or.inr ((memName_eq_true_iff _ _).mp hmv))
        have hcond : (false || ((memName n (storeNames st.vscode)) &&
            !(memName n (storeNames st.nvim)))) = true := by
          rw [hmv, hnvf]
          rfl
        obtain ⟨c, hc, hval⟩ := hcopy2 _ hrec hcond
        have hval' : getFile st1.nvim n = some (syncContent c) := hval
        rw [hval']
        exact Option.some_ne_none _
    · rcases hdisj2 n with hA | ⟨r'', hr'', hrn, c, hc, hval⟩
      · rw [hA, hnvA]
        exact hn
      · rw [hval]
        exact Option.some_ne_none _
  have hA2 : ∀ n, getFile st1.nvim n ≠ none → getFile st1.vscode n ≠ none := by
    intro n hne
    rcases hdisj2 n with hA | ⟨r'', hr'', hrn, c, hc, hval⟩
    · rw [hA, hnvA] at hne
      rw [hvs1]
      exact htrans n hne
    · rw [hvs1]
      have hc' : getFile stA.vscode n = some c := by rw [← hrn]; exact hc
      rw [hc']
      exact Option.some_ne_none _
  have hboth : ∀ r' ∈ list_snippets_files st1,
      r'.exists_in_vscode = true ∧ r'.exists_in_nvim = true := by
    intro r' hr'
    obtain ⟨hv', hn'⟩ := list_snippets_files_flags st1 r' hr'
    have hone : getFile st1.vscode r'.name ≠ none ∨ getFile st1.nvim r'.name ≠ none := by
      rcases list_snippets_files_name_mem st1 r' hr' with hm | hm
      · exact Or.inr ((getFile_ne_none_iff _ _).mpr ((memName_eq_true_iff _ _).mpr hm))
      · exact Or.inl ((getFile_ne_none_iff _ _).mpr ((memName_eq_true_iff _ _).mpr hm))
    have hbothn : getFile st1.vscode r'.name ≠ none ∧ getFile st1.nvim r'.name ≠ none := by
      rcases hone with h | h
      · exact ⟨h, hA1 _ h⟩
      · exact ⟨hA2 _ h, h⟩
    constructor
    · rw [hv']
      exact (getFile_ne_none_iff _ _).mp hbothn.1
    · rw [hn']
      exact (getFile_ne_none_iff _ _).mp hbothn.2
  have hnoop1 : nvim_to_vscode (list_snippets_files st1) st1 = some st1 :=
    nvim_to_vscode_noop _ _ (fun r' hr' => by
      obtain ⟨hv', hn'⟩ := hboth r' hr'
      rw [hv', hn']
      rfl)
  have hnoop2 : vscode_to_nvim false (list_snippets_files st1) st1 = some st1 :=
    vscode_to_nvim_noop false _ _ (fun r' hr' => by
      obtain ⟨hv', hn'⟩ := hboth r' hr'
      rw [hv', hn']
      rfl)
  refine ⟨st1, ?_, rfl, fun parse => rfl⟩
  simp only [runMain, hnoop1]
  exact hnoop2

/-- Claim C10: invoking the A→B pass with `force_copy=True` while some
listed record's file is absent from the vscode snippets directory aborts
with an unhandled `FileNotFoundError` (modeled as `none`); the force-mode
pass only succeeds in the program because the default entry point runs
the B→A pass first, after which the composed force-mode run completes. -/
theorem C10_force_read_failure (st : SyncState) (r : _SnippetFile)
    (hr : r ∈ list_snippets_files st) (habs : getFile st.vscode r.name = none) :
    vscode_to_nvim true (list_snippets_files st) st = none ∧
    ∃ st', runMain true st = some st' := by
  constructor
  · exact vscode_to_nvim_force_fail _ st r hr habs
  · obtain ⟨st1, hrun1⟩ := pass1_total st
    have hread2 : ∀ r' ∈ list_snippets_files st,
        (true || (r'.exists_in_vscode && !r'.exists_in_nvim)) = true →
        getFile st1.vscode r'.name ≠ none :=
      fun r' hr' _ => pass2_read_ok st st1 hrun1 r' hr'
    obtain ⟨st2, hrun2, _⟩ := vscode_to_nvim_go true (list_snippets_files st) st1 hread2
    refine ⟨st2, ?_⟩
    simp only [runMain, hrun1]
    exact hrun2

/-- Claim C7: the scope translator is total and pure — every token absent
from the relevant direction's mapping table is returned unchanged, in both
directions. -/
theorem C7_translator_passthrough (s : String)
    (h1 : s ∉ ["plaintext", "bat", "powershell", "ignore", "shellscript",
      "pip-requirements"])
    (h2 : s ∉ ["text", "dosbatch", "ps1", "gitignore", "sh", "zsh", "bash",
      "requirements"]) :
    _convert_scope_from_vscode_to_nvim s = s ∧
    _convert_scope_from_nvim_to_vscode s = s := by
  simp only [List.mem_cons, List.mem_singleton, not_or] at h1 h2
  obtain ⟨a1, a2, a3, a4, a5, a6⟩ := h1
  obtain ⟨b1, b2, b3, b4, b5, b6, b7, b8⟩ := h2
  constructor
  · simp [_convert_scope_from_vscode_to_nvim, a1, a2, a3, a4, a5, a6]
  · simp [_convert_scope_from_nvim_to_vscode, b1, b2, b3, b4, b5, b6, b7, b8]

/-- Witness for C7 at the concrete unmapped token `lua`. -/
theorem C7_translator_passthrough_witness :
    _convert_scope_from_vscode_to_nvim "lua" = "lua" ∧
    _convert_scope_from_nvim_to_vscode "lua" = "lua" :=
  C7_translator_passthrough "lua" (by decide) (by decide)

/-- Claim C8: the two direction-specific mapping tables are not mutual
inverses — translating `shellscript` A→B yields `sh,zsh`, which translates
B→A to itself, not back to `shellscript`. -/
theorem C8_tables_not_inverse :
    ∃ t : String,
      _convert_scope_from_nvim_to_vscode (_convert_scope_from_vscode_to_nvim t) ≠ t :=
  ⟨"shellscript", by decide⟩

/-- Claim C9: when the host platform is not Windows, Darwin or Linux, the
run fails with the configuration error raised by store-root detection,
before any file I/O: the result is the error for every filesystem,
so no snippet file is read, written or copied. -/
theorem C9_configuration_error (system : String)
    (h : system ∉ ["Windows", "Darwin", "Linux"]) :
    ∀ (home : List String) (force : Bool) (fs : List String → Store),
      snippetsSyncMain system home force fs =
        Except.error (ConfigurationError.unsupportedPlatform system) := by
  simp only [List.mem_cons, List.mem_singleton, not_or] at h
  obtain ⟨h1, h2, h3⟩ := h
  intro home force fs
  simp [snippetsSyncMain, _detect_config_dirpathes, h1, h2, h3]

/-- Witness for C9 at the concrete unsupported platform `Haiku`. -/
theorem C9_configuration_error_witness :
    snippetsSyncMain "Haiku" ["home"] false (fun _ => []) =
      Except.error (ConfigurationError.unsupportedPlatform "Haiku") :=
  C9_configuration_error "Haiku" (by decide) ["home"] false (fun _ => [])

/-- Witness for C4: a store with `a.code-snippets` only in vscode and
`b.code-snippets` only in nvim; after the default run the vscode store
holds the nvim-only file with its exact content and the vscode-side file
is untouched. -/
theorem C4_nvim_to_vscode_copy_witness :
    ∃ st', runMain false
        (SyncState.mk [("a.code-snippets", "x")] [("b.code-snippets", "y")]) = some st' ∧
      getFile st'.vscode "b.code-snippets" = some "y" ∧
      getFile st'.vscode "a.code-snippets" = some "x" := by
  obtain ⟨st', hrun, hcopy, hkeep⟩ :=
    C4_nvim_to_vscode_copy
      (SyncState.mk [("a.code-snippets", "x")] [("b.code-snippets", "y")])
  refine ⟨st', hrun, ?_, ?_⟩
  · have hmem : (⟨"b.code-snippets", false, true⟩ : _SnippetFile) ∈
        list_snippets_files
          (SyncState.mk [("a.code-snippets", "x")] [("b.code-snippets", "y")]) := by
      decide
    have h := hcopy _ hmem rfl rfl
    rw [h]
    decide
  · have h := hkeep "a.code-snippets" (by decide)
    rw [h]
    decide

/-- Witness for C5: a file present on both sides; the force-mode run
overwrites the prior nvim content `old` with the rewritten vscode
content. -/
theorem C5_force_overwrite_witness :
    ∃ st', runMain true
        (SyncState.mk [("a.code-snippets", "x")] [("a.code-snippets", "old")]) = some st' ∧
      getFile st'.nvim "a.code-snippets" = some (syncContent "x") := by
  obtain ⟨st', hrun, hover⟩ :=
    C5_force_overwrite
      (SyncState.mk [("a.code-snippets", "x")] [("a.code-snippets", "old")])
  exact ⟨st', hrun, hover "a.code-snippets" "x" (by decide)⟩

/-- Witness for C6: a concrete default run converges in one run and the
second run reproduces the same state. -/
theorem C6_idempotent_witness :
    runMain false (SyncState.mk [("a.code-snippets", "x")] [("b.code-snippets", "y")]) =
      some (SyncState.mk [("a.code-snippets", "x"), ("b.code-snippets", "y")]
        [("b.code-snippets", "y"), ("a.code-snippets", "x")]) ∧
    runMain false (SyncState.mk [("a.code-snippets", "x"), ("b.code-snippets", "y")]
        [("b.code-snippets", "y"), ("a.code-snippets", "x")]) =
      some (SyncState.mk [("a.code-snippets", "x"), ("b.code-snippets", "y")]
        [("b.code-snippets", "y"), ("a.code-snippets", "x")]) := by
  have h1 : runMain false
      (SyncState.mk [("a.code-snippets", "x")] [("b.code-snippets", "y")]) =
      some (SyncState.mk [("a.code-snippets", "x"), ("b.code-snippets", "y")]
        [("b.code-snippets", "y"), ("a.code-snippets", "x")]) := by decide
  obtain ⟨st2, h2, h3, _⟩ := C6_idempotent _ _ h1
  rw [h3] at h2
  exact ⟨h1, h2⟩

/-! Lemmas about the content filter. -/

lemma validLinesLoop_eq (lines : List String) : ∀ acc : List String,
    validLinesLoop acc lines =
      acc ++ (lines.filter (fun l => !isInvalidLine l)).map rewriteLine := by
  induction lines with
  | nil => intro acc; simp [validLinesLoop]
  | cons line rest ih =>
    intro acc
    by_cases h : isInvalidLine line
    · simp [validLinesLoop, h, ih]
    · simp [validLinesLoop, h, ih]

lemma validLines_eq (lines : List String) :
    validLines lines = (lines.filter (fun l => !isInvalidLine l)).map rewriteLine := by
  simpa using validLinesLoop_eq lines []

lemma takeWhile_append_of_all {p : Char → Bool} (l1 : List Char) (c : Char)
    (l2 : List Char) (h1 : ∀ x ∈ l1, p x = true) (h2 : p c = false) :
    (l1 ++ c :: l2).takeWhile p = l1 := by
  induction l1 with
  | nil => simp [List.takeWhile_cons, h2]
  | cons a l1' ih =>
    have ha := h1 a (List.mem_cons_self a l1')
    simp [List.takeWhile_cons, ha,
      ih (fun x hx => h1 x (List.mem_cons_of_mem a hx))]

lemma dropWhile_append_of_all {p : Char → Bool} (l1 : List Char) (c : Char)
    (l2 : List Char) (h1 : ∀ x ∈ l1, p x = true) (h2 : p c = false) :
    (l1 ++ c :: l2).dropWhile p = c :: l2 := by
  induction l1 with
  | nil => simp [List.dropWhile_cons, h2]
  | cons a l1' ih =>
    have ha := h1 a (List.mem_cons_self a l1')
    simp [List.dropWhile_cons, ha,
      ih (fun x hx => h1 x (List.mem_cons_of_mem a hx))]

lemma checkSlashes_eq_true_iff (l : List Char) :
    checkSlashes l = true ↔
      ∃ d rest, l = '/' :: '/' :: d :: rest ∧ isPySpace d = true := by
  rcases l with _ | ⟨c1, _ | ⟨c2, _ | ⟨d, rest⟩⟩⟩
  · simp [checkSlashes]
  · simp [checkSlashes]
  · simp [checkSlashes]
  · constructor
    · intro h
      simp only [checkSlashes, Bool.and_eq_true, decide_eq_true_eq] at h
      exact ⟨d, rest, by rw [h.1.1, h.1.2], h.2⟩
    · rintro ⟨d', rest', heq, hd⟩
      obtain ⟨h1, h2, h3, h4⟩ : c1 = '/' ∧ c2 = '/' ∧ d = d' ∧ rest = rest' := by
        simpa using heq
      subst h1; subst h2; subst h3; subst h4
      simp [checkSlashes, hd]

lemma isInvalidLine_eq_true_iff (l : String) :
    isInvalidLine l = true ↔
    ∃ w d rest, l.data = w ++ '/' :: '/' :: d :: rest ∧ w ≠ [] ∧
      (∀ x ∈ w, isPySpace x = true) ∧ isPySpace d = true := by
  constructor
  · intro h
    rcases hd : l.data with _ | ⟨a, tail⟩
    · rw [isInvalidLine, hd] at h; cases h
    · rw [isInvalidLine, hd] at h
      simp only [Bool.and_eq_true] at h
      obtain ⟨ha, hcs⟩ := h
      obtain ⟨d, rest2, hdw, hd2⟩ := (checkSlashes_eq_true_iff _).mp hcs
      refine ⟨(a :: tail).takeWhile isPySpace, d, rest2, ?_, ?_, ?_, hd2⟩
      · rw [← hdw]
        exact (List.takeWhile_append_dropWhile isPySpace (a :: tail)).symm
      · rw [List.takeWhile_cons, if_pos ha]
        exact List.cons_ne_nil a _
      · intro x hx
        exact List.mem_takeWhile_imp hx
  · rintro ⟨w, d, rest, hld, hw, hall, hd⟩
    rcases w with _ | ⟨x, w'⟩
    · exact absurd rfl hw
    · have hx : isPySpace x = true := hall x (List.mem_cons_self x w')
      have hdw : ((x :: w') ++ '/' :: '/' :: d :: rest).dropWhile isPySpace =
          '/' :: '/' :: d :: rest :=
        dropWhile_append_of_all (x :: w') '/' _ hall (by decide)
      rw [isInvalidLine, hld]
      simp only [List.cons_append] at hld ⊢
      rw [show (x :: (w' ++ '/' :: '/' :: d :: rest)).dropWhile isPySpace =
          '/' :: '/' :: d :: rest from hdw]
      simp [checkSlashes, hx, hd]

/-- Claim C1 (amended): the filter of the A→B copy drops exactly the lines
that begin with one or more whitespace characters, then `//`, then at
least one more whitespace character, irrespective of any text that
follows on the line (the source regex `^\s+//[\s]+` is a prefix match);
every other line is retained, in input order (subject to the scope
rewriting of the retained lines), and the output line count never exceeds
the input line count. -/
theorem C1_content_filter (lines : List String) :
    validLines lines = (lines.filter (fun l => !isInvalidLine l)).map rewriteLine ∧
    (validLines lines).length ≤ lines.length ∧
    (∀ l : String, isInvalidLine l = true ↔
      ∃ w d rest, l.data = w ++ '/' :: '/' :: d :: rest ∧ w ≠ [] ∧
        (∀ x ∈ w, isPySpace x = true) ∧ isPySpace d = true) := by
  refine ⟨validLines_eq lines, ?_, fun l => isInvalidLine_eq_true_iff l⟩
  rw [validLines_eq]
  calc ((lines.filter (fun l => !isInvalidLine l)).map rewriteLine).length
      = (lines.filter (fun l => !isInvalidLine l)).length := List.length_map _ _
    _ ≤ lines.length := List.length_filter_le _ _

/-- Counterexample to claim C1 as stated: the line `  // dropped text`
does not consist solely of whitespace, the comment marker and more
whitespace — it carries trailing text — yet the filter drops it, so
"every other line is retained" fails. -/
theorem C1_counterexample :
    claimSolelyCommentLine "  // dropped text\n" = false ∧
    validLines ["  // dropped text\n"] = [] := by
  exact ⟨by decide, by decide⟩

/-- Witness for C1 on a concrete two-line input: the comment line is
dropped and the other line is kept in order. -/
theorem C1_content_filter_witness :
    validLines ["  // note\n", "keep"] = [rewriteLine "keep"] ∧
    (validLines ["  // note\n", "keep"]).length ≤ 2 ∧
    isInvalidLine "  // note\n" = true := by
  obtain ⟨h1, h2, h3⟩ := C1_content_filter ["  // note\n", "keep"]
  refine ⟨?_, h2, ?_⟩
  · rw [h1]; decide
  · exact (h3 "  // note\n").mpr ⟨[' ', ' '], ' ', "note\n".data, by decide,
      by decide, by decide, by decide⟩

/-! Lemmas about the scope-declaration rewriter. -/

lemma strData_append (s t : String) : (s ++ t).data = s.data ++ t.data :=
  String.data_append s t

lemma strMk_data (s : String) : String.mk s.data = s := by
  cases s
  rfl

lemma stripPrefixChars_self (ps : List Char) : ∀ cs : List Char,
    stripPrefixChars ps (ps ++ cs) = some cs := by
  induction ps with
  | nil => intro cs; rfl
  | cons p ps' ih => intro cs; simp [stripPrefixChars, ih]

lemma matchScopeHead_not_quote (c : Char) (rest : List Char) (h : ¬ c = '\"') :
    matchScopeHead (c :: rest) = none := by
  simp [matchScopeHead, scopeLit, stripPrefixChars, h]

lemma matchScopeHead_decl (ws vl post : List Char)
    (hws : ∀ c ∈ ws, isPySpace c = true) (hv : vl ≠ [])
    (hvq : ∀ c ∈ vl, ¬ c = '\"') :
    matchScopeHead (scopeLit ++ (ws ++ '\"' :: (vl ++ '\"' :: post))) =
      some (vl, post) := by
  rcases vl with _ | ⟨a, as⟩
  · exact absurd rfl hv
  have h1 := stripPrefixChars_self scopeLit (ws ++ '\"' :: ((a :: as) ++ '\"' :: post))
  have h2 : (ws ++ '\"' :: ((a :: as) ++ '\"' :: post)).dropWhile isPySpace =
      '\"' :: ((a :: as) ++ '\"' :: post) :=
    dropWhile_append_of_all ws '\"' _ hws (by decide)
  have h3 : ((a :: as) ++ '\"' :: post).takeWhile (fun c => !(c = '\"')) = a :: as :=
    takeWhile_append_of_all (a :: as) '\"' post
      (fun x hx => by simp [hvq x hx]) (by decide)
  have h4 : ((a :: as) ++ '\"' :: post).dropWhile (fun c => !(c = '\"')) =
      '\"' :: post :=
    dropWhile_append_of_all (a :: as) '\"' post
      (fun x hx => by simp [hvq x hx]) (by decide)
  simp only [matchScopeHead, h1, h2, h3, h4]

lemma searchScope_clean (l1 l2 : List Char) (h : ∀ c ∈ l1, ¬ c = '\"') :
    searchScope (l1 ++ l2) = searchScope l2 := by
  induction l1 with
  | nil => rfl
  | cons c l1' ih =>
    have hc := h c (List.mem_cons_self c l1')
    simp only [List.cons_append, searchScope]
    rw [matchScopeHead_not_quote c _ hc]
    exact ih (fun x hx => h x (List.mem_cons_of_mem c hx))

lemma searchScope_decl (ws vl post : List Char)
    (hws : ∀ c ∈ ws, isPySpace c = true) (hv : vl ≠ [])
    (hvq : ∀ c ∈ vl, ¬ c = '\"') :
    searchScope (scopeLit ++ (ws ++ '\"' :: (vl ++ '\"' :: post))) = some vl := by
  have hm := matchScopeHead_decl ws vl post hws hv hvq
  simp only [scopeLit, List.cons_append] at hm ⊢
  simp only [searchScope, hm]

lemma scopeSubLoop_of_search_none (repl : List Char) : ∀ (cs : List Char) (fuel : Nat),
    searchScope cs = none → cs.length ≤ fuel → scopeSubLoop repl fuel cs = cs := by
  intro cs
  induction cs with
  | nil => intro fuel _ _; cases fuel <;> rfl
  | cons c rest ih =>
    intro fuel hs hlen
    rcases fuel with _ | f
    · simp at hlen
    · have hm : matchScopeHead (c :: rest) = none := by
        rcases hmm : matchScopeHead (c :: rest) with _ | ⟨val, rem⟩
        · rfl
        · simp only [searchScope, hmm] at hs
          exact Option.noConfusion hs
      have hs' : searchScope rest = none := by
        simp only [searchScope, hm] at hs
        exact hs
      simp only [scopeSubLoop, hm]
      rw [ih f hs' (by simpa using Nat.le_of_succ_le_succ hlen)]

lemma scopeSubLoop_shape (repl ws vl post : List Char)
    (hws : ∀ c ∈ ws, isPySpace c = true) (hv : vl ≠ [])
    (hvq : ∀ c ∈ vl, ¬ c = '\"') (hpost : searchScope post = none) :
    ∀ (pre : List Char) (fuel : Nat), (∀ c ∈ pre, ¬ c = '\"') →
      (pre ++ (scopeLit ++ (ws ++ '\"' :: (vl ++ '\"' :: post)))).length ≤ fuel →
      scopeSubLoop repl fuel (pre ++ (scopeLit ++ (ws ++ '\"' :: (vl ++ '\"' :: post)))) =
        pre ++ (repl ++ post) := by
  intro pre
  induction pre with
  | nil =>
    intro fuel _ hlen
    rcases fuel with _ | f
    · exfalso
      simp [scopeLit] at hlen
    · have hm := matchScopeHead_decl ws vl post hws hv hvq
      simp only [List.nil_append] at hlen ⊢
      simp only [scopeLit, List.cons_append] at hm hlen ⊢
      simp only [scopeSubLoop, hm]
      rw [scopeSubLoop_of_search_none repl post f hpost (by
        simp only [List.length_append, List.length_cons] at hlen
        omega)]
  | cons c pre' ih =>
    intro fuel hpre hlen
    rcases fuel with _ | f
    · exfalso
      simp at hlen
    · have hc := hpre c (List.mem_cons_self c pre')
      simp only [List.cons_append] at hlen ⊢
      simp only [scopeSubLoop, matchScopeHead_not_quote c _ hc]
      rw [ih f (fun x hx => hpre x (List.mem_cons_of_mem c hx)) (by
        simp only [List.length_cons] at hlen
        omega)]

lemma rewriteLine_decl (pre ws v post : String)
    (hpre : ∀ c ∈ pre.data, ¬ c = '\"')
    (hws : ∀ c ∈ ws.data, isPySpace c = true)
    (hv : v.data ≠ []) (hvq : ∀ c ∈ v.data, ¬ c = '\"')
    (hpost : searchScope post.data = none) :
    rewriteLine (pre ++ "\"scope\":" ++ ws ++ "\"" ++ v ++ "\"" ++ post) =
      pre ++ "\"scope\": \"" ++ translateScopeValue v ++ "\"" ++ post := by
  have hdata : (pre ++ "\"scope\":" ++ ws ++ "\"" ++ v ++ "\"" ++ post).data =
      pre.data ++ (scopeLit ++ (ws.data ++ '\"' :: (v.data ++ '\"' :: post.data))) := by
    have e1 : ("\"scope\":" : String).data = scopeLit := rfl
    have e2 : ("\"" : String).data = ['\"'] := rfl
    simp [strData_append, e1, e2, List.append_assoc, scopeLit]
  have hsearch : searchScope
      (pre ++ "\"scope\":" ++ ws ++ "\"" ++ v ++ "\"" ++ post).data = some v.data := by
    rw [hdata, searchScope_clean pre.data _ hpre,
      searchScope_decl ws.data v.data post.data hws hv hvq]
  simp only [rewriteLine, hsearch]
  rw [strMk_data]
  rw [hdata]
  unfold scopeSubAll
  rw [scopeSubLoop_shape _ ws.data v.data post.data hws hv hvq hpost pre.data _
    hpre (le_refl _)]
  rw [← strMk_data (pre ++ "\"scope\": \"" ++ translateScopeValue v ++ "\"" ++ post)]
  congr 1
  have e2 : ("\"" : String).data = ['\"'] := rfl
  simp [strData_append, e2, List.append_assoc]

/-- Claim C3 (amended): for every retained line containing a `"scope":
"<value>"` declaration, the rewriter splits the value on commas, strips
each token, translates it A→B and rejoins with commas
(`translateScopeValue`), then replaces the whole matched declaration with
`"scope": "<translated>"`, normalizing the whitespace between the colon
and the value to exactly one space; the text before and after the matched
declaration is preserved verbatim.  Lines without a scope declaration
pass through unchanged. -/
theorem C3_scope_rewrite :
    (∀ line : String, searchScope line.data = none → rewriteLine line = line) ∧
    (∀ pre ws v post : String,
      (∀ c ∈ pre.data, ¬ c = '\"') →
      (∀ c ∈ ws.data, isPySpace c = true) →
      v.data ≠ [] →
      (∀ c ∈ v.data, ¬ c = '\"') →
      searchScope post.data = none →
      rewriteLine (pre ++ "\"scope\":" ++ ws ++ "\"" ++ v ++ "\"" ++ post) =
        pre ++ "\"scope\": \"" ++ translateScopeValue v ++ "\"" ++ post) := by
  constructor
  · intro line h
    simp [rewriteLine, h]
  · intro pre ws v post h1 h2 h3 h4 h5
    exact rewriteLine_decl pre ws v post h1 h2 h3 h4 h5

/-- Counterexample to claim C3 as stated: on the line `\t"scope":"bat",`
(no space after the colon) the rewriter emits `\t"scope": "dosbatch",`,
inserting a space after the colon, so the text of the line outside the
substituted value is not preserved verbatim. -/
theorem C3_counterexample :
    rewriteLine "\t\"scope\":\"bat\"," = "\t\"scope\": \"dosbatch\"," ∧
    ("\t\"scope\": \"dosbatch\"," : String) ≠ "\t\"scope\":\"dosbatch\"," := by
  exact ⟨by decide, by decide⟩

/-- Witness for C3 at a concrete line with two scope tokens: the value is
split, stripped, translated and rejoined, and the colon spacing is
normalized. -/
theorem C3_scope_rewrite_witness :
    rewriteLine ("  " ++ "\"scope\":" ++ "" ++ "\"" ++ "bat, shellscript" ++ "\"" ++ ",") =
      "  " ++ "\"scope\": \"" ++ translateScopeValue "bat, shellscript" ++ "\"" ++ "," ∧
    translateScopeValue "bat, shellscript" = "dosbatch,sh,zsh" := by
  refine ⟨C3_scope_rewrite.2 "  " "" "bat, shellscript" ","
    (by decide) (by decide) (by decide) (by decide) (by decide), by decide⟩

/-! Lemmas about the manifest builder. -/

lemma dotSlash_inj (a b : String) (h : ("./" ++ a : String) = "./" ++ b) : a = b := by
  have hd : ("./" ++ a).data = ("./" ++ b).data := by rw [h]
  rw [strData_append, strData_append] at hd
  have e : ("./" : String).data = ['.', '/'] := rfl
  rw [e] at hd
  simp only [List.cons_append, List.nil_append, List.cons.injEq, true_and] at hd
  cases a
  cases b
  exact congrArg String.mk hd

lemma create_package_json_cons (f : String × List SnippetEntry)
    (rest : List (String × List SnippetEntry)) :
    create_package_json (f :: rest) =
      { language := fileLanguage f.2, path := "./" ++ f.1 } :: create_package_json rest :=
  rfl

lemma create_package_json_filter_nil (rest : List (String × List SnippetEntry))
    (name : String) (hno : name ∉ rest.map Prod.fst) :
    (create_package_json rest).filter (fun m => m.path = "./" ++ name) = [] := by
  induction rest with
  | nil => rfl
  | cons f rest' ih =>
    have hne : f.1 ≠ name := fun hh =>
      hno (by rw [← hh]; exact List.mem_map_of_mem Prod.fst (List.mem_cons_self f rest'))
    have hpf : ¬ (("./" ++ f.1 : String) = "./" ++ name) :=
      fun hh => hne (dotSlash_inj _ _ hh)
    rw [create_package_json_cons, List.filter_cons, if_neg (by simpa using hpf)]
    exact ih (fun hm => hno (List.mem_cons_of_mem _ hm))

lemma create_package_json_filter (store : List (String × List SnippetEntry))
    (hnd : (store.map Prod.fst).Nodup) (name : String) (entries : List SnippetEntry)
    (hmem : (name, entries) ∈ store) :
    (create_package_json store).filter (fun m => m.path = "./" ++ name) =
      [{ language := fileLanguage entries, path := "./" ++ name }] := by
  induction store with
  | nil => cases hmem
  | cons f rest ih =>
    have hnd' : (f.1 :: rest.map Prod.fst).Nodup := by
      simpa only [List.map_cons] using hnd
    obtain ⟨hn1, hn2⟩ := List.nodup_cons.mp hnd'
    rcases List.mem_cons.mp hmem with heq | hmem'
    · obtain ⟨h1, h2⟩ : f.1 = name ∧ f.2 = entries := by
        rw [← heq]
        exact ⟨rfl, rfl⟩
      have hno : name ∉ rest.map Prod.fst := by
        rw [← h1]
        exact hn1
      rw [create_package_json_cons, List.filter_cons, if_pos (by simp [h1]), h1, h2,
        create_package_json_filter_nil rest name hno]
    · have hname : name ∈ rest.map Prod.fst :=
        List.mem_map.mpr ⟨(name, entries), hmem', rfl⟩
      have hne : f.1 ≠ name := fun hh => hn1 (hh ▸ hname)
      have hpf : ¬ (("./" ++ f.1 : String) = "./" ++ name) :=
        fun hh => hne (dotSlash_inj _ _ hh)
      rw [create_package_json_cons, List.filter_cons, if_neg (by simpa using hpf)]
      exact ih hn2 hmem'

lemma collectScopes_all_empty (entries : List SnippetEntry)
    (hall : ∀ e ∈ entries, e.scope.getD "" = "") :
    ∀ x ∈ collectScopes entries, x = "" := by
  induction entries with
  | nil => simp [collectScopes]
  | cons e rest ih =>
    intro x hx
    have he := hall e (List.mem_cons_self e rest)
    simp only [collectScopes] at hx
    rcases List.mem_append.mp hx with h | h
    · rw [he] at h
      have hsplit : pySplitComma "" = [""] := rfl
      rw [hsplit] at h
      simp only [List.map_cons, List.map_nil, List.mem_singleton] at h
      rw [h]
      decide
    · exact ih (fun e' he' => hall e' (List.mem_cons_of_mem e he')) x h

lemma dedupLoop_all_empty_seen (l : List String) (hl : ∀ x ∈ l, x = "") :
    ∀ seen, memName "" seen = true → dedupLoop seen l = [] := by
  induction l with
  | nil => intro seen _; rfl
  | cons x rest ih =>
    intro seen hseen
    have hx := hl x (List.mem_cons_self x rest)
    subst hx
    simp only [dedupLoop, hseen, if_true]
    exact ih (fun x' hx' => hl x' (List.mem_cons_of_mem _ hx')) seen hseen

lemma dedupLoop_all_empty (l : List String) (hl : ∀ x ∈ l, x = "") :
    ∀ seen, dedupLoop seen l = [] ∨ dedupLoop seen l = [""] := by
  induction l with
  | nil => intro seen; exact Or.inl rfl
  | cons x rest ih =>
    intro seen
    have hx := hl x (List.mem_cons_self x rest)
    subst hx
    by_cases h : memName "" seen = true
    · simp only [dedupLoop, h, if_true]
      exact ih (fun x' hx' => hl x' (List.mem_cons_of_mem _ hx')) seen
    · have hf : memName "" seen = false := by
        cases hg : memName "" seen with
        | true => exact absurd hg h
        | false => rfl
      right
      simp only [dedupLoop, hf, Bool.false_eq_true, if_false]
      rw [dedupLoop_all_empty_seen rest
        (fun x' hx' => hl x' (List.mem_cons_of_mem _ hx')) ("" :: seen) (by
          simp [memName])]

lemma fileLanguage_all (entries : List SnippetEntry)
    (hall : ∀ e ∈ entries, e.scope.getD "" = "") :
    fileLanguage entries = "all" := by
  have hj : pyJoinComma (dedupFirst (collectScopes entries)) = "" := by
    rcases dedupLoop_all_empty (collectScopes entries)
        (collectScopes_all_empty entries hall) [] with h | h <;>
      rw [dedupFirst, h] <;> rfl
  simp [fileLanguage, hj, removeSpaces]

/-- Claim C2 (amended): the manifest contains exactly one entry per
snippet file of store B, whose path is `./<filename>` and whose language
is `fileLanguage` of the file's entries: the comma-join of the
de-duplicated translated stripped tokens obtained by splitting each
entry's scope string on commas — an entry without a scope contributing
one empty token via `get("scope", "")` — with spaces removed and the
sentinel `all` substituted when the joined string is empty (in
particular, when every entry lacks a scope). -/
theorem C2_manifest (store : List (String × List SnippetEntry))
    (hnd : (store.map Prod.fst).Nodup) (name : String) (entries : List SnippetEntry)
    (hmem : (name, entries) ∈ store) :
    (create_package_json store).filter (fun m => m.path = "./" ++ name) =
      [{ language := fileLanguage entries, path := "./" ++ name }] ∧
    ((∀ e ∈ entries, e.scope.getD "" = "") → fileLanguage entries = "all") := by
  exact ⟨create_package_json_filter store hnd name entries hmem,
    fun hall => fileLanguage_all entries hall⟩

/-- Counterexample to claim C2 as stated: a file with one entry scoped
`python` and one entry without a scope.  The set of declared scope tokens
is exactly `python`, so the claim's language is `python`; the code's
`get("scope", "")` makes the scope-less entry contribute an empty token,
producing the language string `python,` with a trailing empty token. -/
theorem C2_counterexample :
    fileLanguage [{ scope := some "python" }, { scope := none }] = "python," ∧
    claimFileLanguage [{ scope := some "python" }, { scope := none }] = "python" ∧
    fileLanguage [{ scope := some "python" }, { scope := none }] ≠
      claimFileLanguage [{ scope := some "python" }, { scope := none }] := by
  exact ⟨by decide, by decide, by decide⟩

/-- Witness for C2: a one-file store whose single entry is scoped
`plaintext`; the manifest holds exactly one entry for it, with the
translated language `text`. -/
theorem C2_manifest_witness :
    (create_package_json [("a.code-snippets", [{ scope := some "plaintext" }])]).filter
      (fun m => m.path = "./" ++ "a.code-snippets") =
      [{ language := fileLanguage [{ scope := some "plaintext" }],
         path := "./" ++ "a.code-snippets" }] ∧
    fileLanguage [{ scope := some "plaintext" }] = "text" := by
  refine ⟨(C2_manifest [("a.code-snippets", [{ scope := some "plaintext" }])]
    (by decide) "a.code-snippets" [{ scope := some "plaintext" }] (by decide)).1,
    by decide⟩

/-- Witness for C10: a store whose only file lives on the nvim side; the
bare force-mode pass fails while the composed force-mode run succeeds. -/
theorem C10_force_read_failure_witness :
    vscode_to_nvim true
      (list_snippets_files (SyncState.mk [] [("a.code-snippets", "z")]))
      (SyncState.mk [] [("a.code-snippets", "z")]) = none ∧
    ∃ st', runMain true (SyncState.mk [] [("a.code-snippets", "z")]) = some st' :=
  C10_force_read_failure (SyncState.mk [] [("a.code-snippets", "z")])
    ⟨"a.code-snippets", false, true⟩ (by decide) (by decide)

end SyncSnippets
